import Mathlib

/-!
Verification of the `AnalysisModule` incremental-pipeline scheduler
(`multipatch_analysis/modules/module.py`).

The embedding models:
  * the staleness classifier `job_summary` / `dependent_finished_jobs`
    (lines 137-188), including the two undefined-name faults the file
    actually contains: `dependent_finished_jobs` is declared with first
    parameter `self` but its body reads `cls` (line 176), and the
    classification at line 161 compares against the bare name `date`,
    which is bound nowhere in the module;
  * the scheduler `update` / `_run_job` (lines 47-98), sequential path,
    under the Python-2 print semantics the file is written for
    (`print ("...") % args` is a Python-2 print statement of a formatted
    string; the formatting itself cannot fail for these templates);
  * the dependency-graph resolver `all_modules` / `dependent_modules`
    (lines 36-45).  The topological sort it delegates to
    (`pyqtgraph.toposort`) is not part of this repository's sources, so
    that one function is modelled from the specification instead.

Work units are `Nat` identifiers, completion timestamps are `Nat`,
completion-record maps are association lists `List (Nat × Nat)`
(unit ↦ timestamp), matching the ordered dicts of the source.
Raised Python exceptions are modelled with `Except PyError`.
-/

/-- Python exception values that the embedded code can raise.
`nameError "cls"` and `nameError "date"` model `NameError` for the two
undefined names in `module.py` (CPython reports the unbound local
`invalid` of line 74 as `UnboundLocalError`, a `NameError` subclass;
we keep the single constructor).  `cyclicDependency` models the
`CyclicDependencyError` of the dependency-graph resolver. -/
inductive PyError where
  | nameError (missing : String)
  | attributeError (ty attr : String)
  | processingError (msg : String)
  | cyclicDependency (stages : List String)
deriving DecidableEq

/-- Insert into an ascending list; building block of `sortNatsAsc`. -/
def insertAsc (x : Nat) : List Nat → List Nat
  | [] => [x]
  | y :: ys => if x ≤ y then x :: y :: ys else y :: insertAsc x ys

/-- Ascending insertion sort; models Python `sorted(...)` on unit ids. -/
def sortNatsAsc (l : List Nat) : List Nat := l.foldr insertAsc []

/-- Insert into a descending list; building block of `sortNatsDesc`. -/
def insertDesc (x : Nat) : List Nat → List Nat
  | [] => [x]
  | y :: ys => if y ≤ x then x :: y :: ys else y :: insertDesc x ys

/-- Descending insertion sort; models `sorted(..., reverse=True)` (line 69). -/
def sortNatsDesc (l : List Nat) : List Nat := l.foldr insertDesc []

/-- The per-stage data the classifier reads: the stage's own completion
records (`cls.finished_jobs()`, implemented by the concrete subclass) and,
for each declared dependency, that dependency's completion records
(`dep.finished_jobs()` at line 177). -/
structure StageState where
  name : String
  dependencies : List (List (Nat × Nat))
  finished_jobs : List (Nat × Nat)

/-- Dictionary lookup on an association list, modelling `d[k]` / `k in d`. -/
def lookupDate (m : List (Nat × Nat)) (k : Nat) : Option Nat :=
  (m.find? (fun p => p.1 == k)).map Prod.snd

/-- Embeds `AnalysisModule.dependent_finished_jobs` (lines 170-188) as the
code actually executes.  The method is declared `def dependent_finished_jobs
(self)` but its body starts with `for i, dep in enumerate(cls.dependencies)`
(line 176); no name `cls` is bound in any enclosing scope, so every call
raises `NameError: name 'cls' is not defined` before touching a dependency,
regardless of how many dependencies the stage declares. -/
def dependent_finished_jobs (_st : StageState) : Except PyError (List (Nat × Nat)) :=
  .error (.nameError "cls")

/-- Models `jobs.setdefault(k, []).append(v)` of line 179: append `v` to the
date list of key `k`, creating the entry at the end if absent. -/
def addDate (jobs : List (Nat × List Nat)) (k v : Nat) : List (Nat × List Nat) :=
  if jobs.any (fun p => p.1 == k) then
    jobs.map (fun p => if p.1 == k then (p.1, p.2 ++ [v]) else p)
  else
    jobs ++ [(k, [v])]

/-- The accumulation loop of lines 176-179 (with `cls` read as the receiving
class): gather, per unit, the completion dates of every dependency that has
one. -/
def collectDepDates (deps : List (List (Nat × Nat))) : List (Nat × List Nat) :=
  deps.foldl (fun acc dep => dep.foldl (fun a kv => addDate a kv.1 kv.2) acc) []

/-- The body of `dependent_finished_jobs` (lines 175-188) as it would execute
if `cls` were bound to the receiving class, which is the evident intent:
keep only units every dependency has finished, and record the newest
(`max`) dependency date for each (line 186).  This definition exists to
exercise the classification loop on the data it was meant to receive; the
method as written never reaches this computation (see
`dependent_finished_jobs`). -/
def dependent_finished_jobs_body (st : StageState) : List (Nat × Nat) :=
  (collectDepDates st.dependencies).filterMap (fun p =>
    if p.2.length < st.dependencies.length then none
    else some (p.1, p.2.foldl max 0))

/-- One step of the classification loop, lines 159-166, iterated over the
sorted union of unit ids.  When `job` has a record in both maps the source
evaluates `dep_finished[job] > date` (line 161); `date` is an undefined
name, so that comparison raises `NameError`.  When only the stage itself
has a record, the first disjunct `job not in dep_finished` is already true
and the unit is appended to `invalid` without evaluating `date`.  The
`finished` bucket is consequently unreachable in any non-raising run. -/
def job_summary_go (my dep : List (Nat × Nat)) :
    List Nat → Except PyError (List Nat × List Nat × List Nat)
  | [] => .ok ([], [], [])
  | job :: rest =>
    match lookupDate my job with
    | some _ =>
      match lookupDate dep job with
      | none =>
        match job_summary_go my dep rest with
        | .error e => .error e
        | .ok (f, i, r) => .ok (f, job :: i, r)
      | some _ => .error (.nameError "date")
    | none =>
      match job_summary_go my dep rest with
      | .error e => .error e
      | .ok (f, i, r) => .ok (f, i, job :: r)

/-- Lines 153-168 of `job_summary`, given the two completion-record maps:
iterate `sorted(list(set(my.keys()) + set(dep.keys())))` through the
classification of `job_summary_go`. -/
def job_summary_loop (my dep : List (Nat × Nat)) :
    Except PyError (List Nat × List Nat × List Nat) :=
  job_summary_go my dep (sortNatsAsc ((my.map Prod.fst ++ dep.map Prod.fst).dedup))

/-- Embeds `AnalysisModule.job_summary` (lines 137-168).  Line 151 calls
`cls.dependent_finished_jobs()`, which raises `NameError` on the undefined
name `cls` (see `dependent_finished_jobs`), so the call propagates that
error before classifying anything. -/
def job_summary (st : StageState) :
    Except PyError (List Nat × List Nat × List Nat) :=
  match dependent_finished_jobs st with
  | .error e => .error e
  | .ok dep => job_summary_loop st.finished_jobs dep

/-- One job tuple `(expt_id, expt_id in invalid, i, len(experiment_ids))`
built at line 74. -/
structure Job where
  expt_id : Nat
  invalid : Bool
  index : Nat
  total : Nat
deriving DecidableEq

/-- The observable outcome `_run_job` records for one job: the `Finished`
print on success, or the `Error processing` print plus the traceback that
`sys.excepthook` emits for the caught exception (lines 94-98). -/
inductive JobOutcome where
  | success (expt_id : Nat)
  | failure (expt_id : Nat) (exc : PyError)
deriving DecidableEq

/-- Embeds `AnalysisModule._run_job` (lines 83-98) for a process function
supplied by the concrete stage: run `cls.process_experiment`, and on an
exception either re-raise it (`raise_exceptions=True`) or record it against
this job and return normally (`raise_exceptions=False`).  The two prints
are Python-2 print statements of formatted strings and are modelled as the
returned `JobOutcome`. -/
def run_job (process : Nat → Bool → Except PyError Unit) (job : Job)
    (raise_exceptions : Bool) : Except PyError JobOutcome :=
  match process job.expt_id job.invalid with
  | .ok _ => .ok (.success job.expt_id)
  | .error exc =>
    if raise_exceptions then .error exc else .ok (.failure job.expt_id exc)

/-- Embeds the sequential dispatch loop of `update` (lines 79-81):
`for job in jobs: cls._run_job(job, raise_exceptions=raise_exceptions)`.
Returns the list of unit ids on which `process` was actually invoked
(first component) together with either the recorded per-job outcomes or
the exception that escaped the loop. -/
def run_jobs_sequential (process : Nat → Bool → Except PyError Unit)
    (raise_exceptions : Bool) :
    List Job → List Nat × Except PyError (List JobOutcome)
  | [] => ([], .ok [])
  | j :: rest =>
    match run_job process j raise_exceptions with
    | .error e => ([j.expt_id], .error e)
    | .ok o =>
      (j.expt_id :: (run_jobs_sequential process raise_exceptions rest).1,
       (run_jobs_sequential process raise_exceptions rest).2.map (fun os => o :: os))

/-- The outcome `_run_job` records for one job when exceptions are not
re-raised: success, or the job's own exception. -/
def job_outcome (process : Nat → Bool → Except PyError Unit) (j : Job) : JobOutcome :=
  match process j.expt_id j.invalid with
  | .ok _ => .success j.expt_id
  | .error e => .failure j.expt_id e

/-- Whether `process` succeeds on a job's unit. -/
def job_succeeds (process : Nat → Bool → Except PyError Unit) (j : Job) : Bool :=
  match process j.expt_id j.invalid with
  | .ok _ => true
  | .error _ => false

/-- The list comprehension of line 74, building one `Job` per selected unit.
The comprehension body reads the name `invalid`, which is assigned only
inside the `experiment_ids is None` branch (line 68); when the caller
supplied an explicit unit list the name is unbound (`invalid? = none`) and
evaluating the body raises `NameError`.  The body runs once per element,
so an empty unit list builds `[]` without raising. -/
def build_jobs_from (invalid? : Option (List Nat)) (total : Nat) :
    Nat → List Nat → Except PyError (List Job)
  | _, [] => .ok []
  | i, e :: rest =>
    match invalid? with
    | none => .error (.nameError "invalid")
    | some invalid =>
      match build_jobs_from invalid? total (i + 1) rest with
      | .error err => .error err
      | .ok js => .ok (⟨e, invalid.contains e, i, total⟩ :: js)

/-- Line 74: `[(expt_id, (expt_id in invalid), i, len(experiment_ids)) for
i, expt_id in enumerate(experiment_ids)]`. -/
def build_jobs (invalid? : Option (List Nat)) (ids : List Nat) :
    Except PyError (List Job) :=
  build_jobs_from invalid? ids.length 0 ids

/-- Embeds `AnalysisModule.update` (lines 47-81), sequential path
(`parallel=False`; the multiprocessing pool of lines 76-78 is outside this
embedding).  `process` stands for the subclass's `process_experiment`;
`shuffle` stands for `np.random.shuffle` of line 71, i.e. whatever
permutation numpy's global generator produces (the source offers no seed
parameter).  When `experiment_ids is None` the candidate list is requested
from `job_summary` (line 68), which raises; when an explicit list is given,
`build_jobs` reads the unbound name `invalid` (line 74). -/
def update (st : StageState) (process : Nat → Bool → Except PyError Unit)
    (shuffle : List Nat → List Nat) (experiment_ids : Option (List Nat))
    (limit : Option Nat) (raise_exceptions : Bool) :
    List Nat × Except PyError (List JobOutcome) :=
  match experiment_ids with
  | none =>
    match job_summary st with
    | .error e => ([], .error e)
    | .ok (_finished, invalid, ready) =>
      let ids0 := sortNatsDesc (invalid ++ ready)
      let ids := match limit with
        | none => ids0
        | some l => (shuffle ids0).take l
      match build_jobs (some invalid) ids with
      | .error e => ([], .error e)
      | .ok jobs => run_jobs_sequential process raise_exceptions jobs
  | some ids =>
    match build_jobs none ids with
    | .error e => ([], .error e)
    | .ok jobs => run_jobs_sequential process raise_exceptions jobs

/-- Static stage metadata for the graph resolver: the stage's unique name
and the names of its declared upstream dependencies. -/
structure Stage where
  name : String
  dependencies : List String
deriving DecidableEq

/-- The dependency relation over a registry: `depEdge g a b` holds when a
registered stage named `a` declares a dependency on the name `b`. -/
def depEdge (g : List Stage) (a b : String) : Prop :=
  ∃ s ∈ g, s.name = a ∧ b ∈ s.dependencies

instance depEdgeDecidable (g : List Stage) (a b : String) : Decidable (depEdge g a b) :=
  inferInstanceAs (Decidable (∃ s ∈ g, s.name = a ∧ b ∈ s.dependencies))

/-- A stage is ready to be emitted when every declared dependency has
already been emitted. -/
def stageReady (done : List String) (s : Stage) : Bool :=
  s.dependencies.all (fun d => decide (d ∈ done))

/-- The registered stages not yet emitted into the accumulator. -/
def remainingStages (g acc : List Stage) : List Stage :=
  g.filter (fun s => decide (s.name ∉ acc.map Stage.name))

/-- Modelled from the spec: the topological sort `all_modules` delegates to
(`pyqtgraph.toposort`, line 40) is not among this repository's sources.
Following §4.1 of the specification, the loop repeatedly emits the first
stage in declaration order whose dependencies have all been emitted (a
deterministic tie-break), and when no remaining stage can be emitted it
fails, reporting the names of all unprocessable stages — at least one of
which provably lies on a dependency cycle (`all_modules_cycle_error`).
The fuel `g.length + 1` is always sufficient: each iteration strictly
shrinks `remainingStages`. -/
def topoLoop (g : List Stage) : Nat → List Stage → Except (List String) (List Stage)
  | 0, _ => .error []
  | fuel + 1, acc =>
    if (remainingStages g acc).isEmpty then .ok acc
    else
      match (remainingStages g acc).find? (stageReady (acc.map Stage.name)) with
      | some s => topoLoop g fuel (acc ++ [s])
      | none => .error ((remainingStages g acc).map Stage.name)

/-- The dependency-graph resolver entry point: a deterministic topological
ordering of the registry, or a `CyclicDependencyError` naming the stages
that could not be ordered. -/
def toposortStages (g : List Stage) : Except PyError (List Stage) :=
  match topoLoop g (g.length + 1) [] with
  | .ok L => .ok L
  | .error R => .error (.cyclicDependency R)

/-- Embeds `AnalysisModule.all_modules` (lines 36-40): the ordered dict
`[(mod.name, mod) for mod in toposort(deps)]` over the registered
subclasses `g`, in declaration order. -/
def all_modules (g : List Stage) : Except PyError (List (String × Stage)) :=
  match toposortStages g with
  | .error e => .error e
  | .ok mods => .ok (mods.map (fun m => (m.name, m)))

/-- Embeds `AnalysisModule.dependent_modules` (lines 42-45).
`mods = cls.all_modules()` is an ordered dict, and `for mod in mods`
iterates its KEYS, which are name strings; the filter `cls in
mod.dependencies` therefore reads the attribute `dependencies` of a `str`,
raising `AttributeError` at the first key.  Only an empty registry avoids
the error. -/
def dependent_modules (g : List Stage) (_cls : Stage) : Except PyError (List Stage) :=
  match all_modules g with
  | .error e => .error e
  | .ok mods =>
    match mods.map Prod.fst with
    | [] => .ok []
    | _ :: _ => .error (.attributeError "str" "dependencies")

/-- A process function that succeeds on every unit; used for concrete
evaluations in witnesses and counterexamples. -/
def procAlwaysOk : Nat → Bool → Except PyError Unit := fun _ _ => .ok ()

/-- C1: for a (stage, unit) pair where both the stage and its dependency
hold a completion record, `job_summary` does not classify the unit at all:
the call raises `NameError` on the undefined name `cls` (line 176), and
even when the classification loop is handed the dependency map the
intended code would have produced, the staleness comparison of line 161
raises `NameError` on the undefined name `date`.  Concrete failing input:
stage `B` with one dependency whose records are `{1 ↦ 5}` and own records
`{1 ↦ 3}` — the claim says unit 1 must land in `invalid`. -/
theorem job_summary_stale_unit_raises :
    job_summary ⟨"B", [[(1, 5)]], [(1, 3)]⟩ = .error (.nameError "cls") ∧
    job_summary_loop [(1, 3)]
        (dependent_finished_jobs_body ⟨"B", [[(1, 5)]], [(1, 3)]⟩) =
      .error (.nameError "date") := by
  exact ⟨rfl, rfl⟩

/-- C2: for a stage with an empty dependency list, `job_summary` does not
classify every recorded unit as `finished`: the call itself raises
`NameError` on `cls` (line 176 evaluates `cls.dependencies` even when the
list would be empty), and the classification loop, run on the empty
dependency map the intent would produce, puts the recorded unit 1 into
`invalid` — the first disjunct of line 161, `job not in dep_finished`, is
true whenever `dep_finished` is empty — never into `finished`.  Concrete
failing input: a stage with no dependencies and own records `{1 ↦ 5}`. -/
theorem job_summary_no_deps_raises :
    job_summary ⟨"S", [], [(1, 5)]⟩ = .error (.nameError "cls") ∧
    job_summary_loop [(1, 5)] (dependent_finished_jobs_body ⟨"S", [], [(1, 5)]⟩) =
      .ok ([], [1], []) := by
  exact ⟨rfl, rfl⟩

/-- C3: `job_summary` does not realize the claimed `ready` semantics: the
call raises `NameError` on `cls`, and on the dependency map the intent
would produce, a unit the stage has recorded but the dependency has not
(unit 2 below) is appended to `invalid` by line 161's first disjunct
rather than excluded from every bucket as the claim requires.  Concrete
failing input: stage `T` with own records `{2 ↦ 4}` and one dependency
whose records are `{3 ↦ 7}`; the loop yields `invalid = [2]`,
`ready = [3]`. -/
theorem job_summary_ready_raises :
    job_summary ⟨"T", [[(3, 7)]], [(2, 4)]⟩ = .error (.nameError "cls") ∧
    job_summary_loop [(2, 4)] (dependent_finished_jobs_body ⟨"T", [[(3, 7)]], [(2, 4)]⟩) =
      .ok ([], [2], [3]) := by
  exact ⟨rfl, rfl⟩

/-- C7: `update(experiment_ids=None, limit=None)` dispatches nothing: line
68 asks `job_summary` for the candidate partition, and that call raises
`NameError` on the undefined name `cls`, so the error propagates and no
unit is ever selected, contrary to the claimed `invalid ∪ ready`
descending dispatch.  Concrete failing input: stage `B` with dependency
records `{1 ↦ 5, 2 ↦ 6}` and own records `{1 ↦ 3}`. -/
theorem update_auto_units_raises :
    update ⟨"B", [[(1, 5), (2, 6)]], [(1, 3)]⟩ procAlwaysOk id none none false =
      ([], .error (.nameError "cls")) := by
  exact rfl

/-- C8: `update(experiment_ids=None, limit=1)` never reaches the shuffle of
line 71: the `job_summary` call of line 68 raises `NameError` on the
undefined name `cls` first, so no candidate list exists to sample from and
no job is dispatched.  Concrete failing input: stage `B` with dependency
records `{1 ↦ 5, 2 ↦ 6}` and own records `{1 ↦ 3}`, `limit = 1`. -/
theorem update_limit_raises :
    update ⟨"B", [[(1, 5), (2, 6)]], [(1, 3)]⟩ procAlwaysOk id none (some 1) false =
      ([], .error (.nameError "cls")) := by
  exact rfl

/-- C9: `dependent_modules` does not return the dependents of a stage: on
any non-empty registry it raises `AttributeError`, because it iterates the
keys (name strings) of the `all_modules` ordered dict and reads
`.dependencies` off a string.  Concrete failing input: the registry
containing the single stage `A` with no dependencies, queried for the
dependents of `A` — the claim says the result must be `[]`. -/
theorem dependent_modules_attribute_error :
    dependent_modules [⟨"A", []⟩] ⟨"A", []⟩ =
      .error (.attributeError "str" "dependencies") := by
  exact rfl

/-- C10 counterexample: the claim quantifies over every non-None unit list,
but `update` with the explicitly supplied empty list raises nothing — the
comprehension body of line 74 (the only reader of the unbound name
`invalid`) never runs on an empty list, so the call completes normally
with no job dispatched. -/
theorem update_empty_units_no_error :
    update ⟨"B", [], []⟩ procAlwaysOk id (some []) none false = ([], .ok []) := by
  exact rfl

/-- C10 (amended): for every explicitly supplied NON-EMPTY unit list,
`update` raises `NameError` while building the job list — the name
`invalid` read at line 74 is bound only in the `experiment_ids is None`
branch — and dispatches no job (no unit is ever handed to `process`);
for the empty explicit list the comprehension body never runs, no error
is raised, and still no job is dispatched. -/
theorem update_explicit_units_raises (st : StageState)
    (process : Nat → Bool → Except PyError Unit) (shuffle : List Nat → List Nat)
    (limit : Option Nat) (raise_exceptions : Bool) :
    (∀ ids : List Nat, ids ≠ [] →
      update st process shuffle (some ids) limit raise_exceptions =
        ([], .error (.nameError "invalid"))) ∧
    update st process shuffle (some []) limit raise_exceptions = ([], .ok []) := by
  constructor
  · intro ids hne
    cases ids with
    | nil => exact absurd rfl hne
    | cons x xs => rfl
  · rfl

/-- Witness for `update_explicit_units_raises` at the unit list `[1]`. -/
theorem update_explicit_units_raises_witness :
    update ⟨"B", [], []⟩ procAlwaysOk id (some [1]) none false =
      ([], .error (.nameError "invalid")) :=
  (update_explicit_units_raises ⟨"B", [], []⟩ procAlwaysOk id none false).1 [1]
    (by decide)

/-- In continue mode (`raise_exceptions=False`) a single `_run_job` call
never raises: it records the job's own outcome. -/
theorem run_job_continue (process : Nat → Bool → Except PyError Unit) (j : Job) :
    run_job process j false = .ok (job_outcome process j) := by
  unfold run_job job_outcome
  cases process j.expt_id j.invalid <;> rfl

/-- Continue mode processes every job in order and records each job's own
outcome against it. -/
theorem run_jobs_sequential_continue (process : Nat → Bool → Except PyError Unit)
    (jobs : List Job) :
    run_jobs_sequential process false jobs =
      (jobs.map Job.expt_id, .ok (jobs.map (job_outcome process))) := by
  induction jobs with
  | nil => rfl
  | cons j rest ih =>
    simp [run_jobs_sequential, run_job_continue, ih, Except.map]

/-- Abort mode runs jobs in order until the first failure, whose exception
escapes the loop; the failing job is the last one attempted. -/
theorem run_jobs_sequential_abort (process : Nat → Bool → Except PyError Unit) :
    ∀ (jobs : List Job) (k : Nat) (hk : k < jobs.length) (e : PyError),
      (jobs.take k).all (job_succeeds process) = true →
      process (jobs.get ⟨k, hk⟩).expt_id (jobs.get ⟨k, hk⟩).invalid = .error e →
      run_jobs_sequential process true jobs =
        ((jobs.take (k + 1)).map Job.expt_id, .error e) := by
  intro jobs
  induction jobs with
  | nil => intro k hk; simp at hk
  | cons j rest ih =>
    intro k hk e hall hfail
    cases k with
    | zero =>
      have hrj : run_job process j true = .error e := by
        simp only [List.get] at hfail
        simp [run_job, hfail]
      simp [run_jobs_sequential, hrj]
    | succ k =>
      have hsucc : job_succeeds process j = true := by
        simp only [List.take_succ_cons, List.all_cons, Bool.and_eq_true] at hall
        exact hall.1
      obtain ⟨u, hu⟩ : ∃ u, process j.expt_id j.invalid = .ok u := by
        revert hsucc
        unfold job_succeeds
        cases process j.expt_id j.invalid with
        | ok u => exact fun _ => ⟨u, rfl⟩
        | error _ => simp
      have hrj : run_job process j true = .ok (.success j.expt_id) := by
        simp [run_job, hu]
      have hall' : (rest.take k).all (job_succeeds process) = true := by
        simp only [List.take_succ_cons, List.all_cons, Bool.and_eq_true] at hall
        exact hall.2
      have hk' : k < rest.length := by simpa using hk
      have hfail' : process (rest.get ⟨k, hk'⟩).expt_id (rest.get ⟨k, hk'⟩).invalid =
          .error e := by
        simpa using hfail
      have hrec := ih k hk' e hall' hfail'
      simp [run_jobs_sequential, hrj, hrec, Except.map]

/-- C6: sequential dispatch isolates per-job exceptions.  With
`raise_exceptions=False` every job in the list is processed (the first
component lists every unit handed to `process`, in order) and each job's
exception is recorded against that job only, in its own outcome; with
`raise_exceptions=True` the first failing job's exception escapes the loop
and no later job in the list is processed (exactly the first `k + 1` units
are attempted when job `k` is the first failure). -/
theorem sequential_dispatch_isolation (process : Nat → Bool → Except PyError Unit)
    (jobs : List Job) :
    run_jobs_sequential process false jobs =
      (jobs.map Job.expt_id, .ok (jobs.map (job_outcome process))) ∧
    (∀ (k : Nat) (hk : k < jobs.length) (e : PyError),
      (jobs.take k).all (job_succeeds process) = true →
      process (jobs.get ⟨k, hk⟩).expt_id (jobs.get ⟨k, hk⟩).invalid = .error e →
      run_jobs_sequential process true jobs =
        ((jobs.take (k + 1)).map Job.expt_id, .error e)) :=
  ⟨run_jobs_sequential_continue process jobs,
   fun k hk e hall hfail => run_jobs_sequential_abort process jobs k hk e hall hfail⟩

/-- A process function failing exactly on unit 2; used by the C6 witness. -/
def procFailsOn2 : Nat → Bool → Except PyError Unit :=
  fun n _ => if n == 2 then .error (.processingError "boom") else .ok ()

/-- Witness for `sequential_dispatch_isolation`: three jobs over units
1, 2, 3 where unit 2 fails; abort mode attempts exactly units 1 and 2 and
re-raises the failure. -/
theorem sequential_dispatch_isolation_witness :
    run_jobs_sequential procFailsOn2 true
        [⟨1, false, 0, 3⟩, ⟨2, false, 1, 3⟩, ⟨3, false, 2, 3⟩] =
      ([1, 2], .error (.processingError "boom")) :=
  (sequential_dispatch_isolation procFailsOn2
      [⟨1, false, 0, 3⟩, ⟨2, false, 1, 3⟩, ⟨3, false, 2, 3⟩]).2
    1 (by decide) (.processingError "boom") (by decide) (by rfl)

/-- Filtering with a stronger predicate yields a sublist of filtering with a
weaker one. -/
theorem filter_imp_sublist {α : Type} (p q : α → Bool)
    (h : ∀ a, q a = true → p a = true) :
    ∀ l : List α, List.Sublist (l.filter q) (l.filter p) := by
  intro l
  induction l with
  | nil => simp
  | cons x xs ih =>
    by_cases hq : q x = true
    · have hp := h x hq
      simpa [List.filter_cons, hq, hp] using ih.cons₂ x
    · by_cases hp : p x = true
      · simpa [List.filter_cons, hq, hp] using ih.cons x
      · simpa [List.filter_cons, hq, hp] using ih

/-- Whatever is left after emitting more stages is left after emitting
fewer. -/
theorem remaining_append_sublist (g acc : List Stage) (s : Stage) :
    List.Sublist (remainingStages g (acc ++ [s])) (remainingStages g acc) := by
  apply filter_imp_sublist
  intro a ha
  simp only [decide_eq_true_eq] at ha ⊢
  intro hmem
  exact ha (by rw [List.map_append]; exact List.mem_append.mpr (Or.inl hmem))

/-- Emitting a stage that was still remaining strictly shrinks the
remaining list; this is what makes the fuel `g.length + 1` sufficient. -/
theorem remaining_append_lt (g acc : List Stage) (s : Stage)
    (hs : s ∈ remainingStages g acc) :
    (remainingStages g (acc ++ [s])).length < (remainingStages g acc).length := by
  have hsub := remaining_append_sublist g acc s
  have hne : s ∉ remainingStages g (acc ++ [s]) := by
    intro hmem
    have h2 := (List.mem_filter.mp hmem).2
    simp only [decide_eq_true_eq] at h2
    exact h2 (by simp [List.map_append])
  rcases Nat.lt_or_ge (remainingStages g (acc ++ [s])).length
      (remainingStages g acc).length with h | h
  · exact h
  · exfalso
    have heq : remainingStages g (acc ++ [s]) = remainingStages g acc :=
      hsub.eq_of_length (Nat.le_antisymm hsub.length_le h)
    exact hne (heq ▸ hs)

/-- With an empty accumulator everything is still remaining. -/
theorem remaining_nil (g : List Stage) : remainingStages g [] = g := by
  simp [remainingStages]

/-- The ordering invariant maintained by the sort loop: every stage in the
accumulator has all of its declared dependencies realized by earlier
accumulator entries. -/
def DepsBefore (acc : List Stage) : Prop :=
  ∀ i : Fin acc.length, ∀ d ∈ (acc.get i).dependencies,
    ∃ k : Fin acc.length, (k : Nat) < (i : Nat) ∧ (acc.get k).name = d

/-- A successful run of the sort loop preserves the ordering invariant,
keeps the output inside the registry, keeps output names duplicate-free,
and terminates only once nothing is remaining. -/
theorem topoLoop_ok_inv (g : List Stage) :
    ∀ (fuel : Nat) (acc L : List Stage), topoLoop g fuel acc = .ok L →
      DepsBefore acc → (∀ a ∈ acc, a ∈ g) → (acc.map Stage.name).Nodup →
      DepsBefore L ∧ (∀ a ∈ L, a ∈ g) ∧ (L.map Stage.name).Nodup ∧
        remainingStages g L = [] := by
  intro fuel
  induction fuel with
  | zero => intro acc L h; simp [topoLoop] at h
  | succ n ih =>
    intro acc L h hinv hsub hnd
    by_cases hre : (remainingStages g acc).isEmpty
    · rw [topoLoop, if_pos hre] at h
      cases h
      exact ⟨hinv, hsub, hnd, List.isEmpty_iff.mp hre⟩
    · rw [topoLoop, if_neg hre] at h
      cases hf : (remainingStages g acc).find? (stageReady (acc.map Stage.name)) with
      | none => rw [hf] at h; cases h
      | some s =>
        rw [hf] at h
        have hs_rem : s ∈ remainingStages g acc := List.mem_of_find?_eq_some hf
        have hs_ready : stageReady (acc.map Stage.name) s = true := List.find?_some hf
        have hs_g : s ∈ g := (List.mem_filter.mp hs_rem).1
        have hs_new : s.name ∉ acc.map Stage.name := by
          have h2 := (List.mem_filter.mp hs_rem).2
          simpa using h2
        apply ih (acc ++ [s]) L h
        · -- the invariant survives appending a ready stage
          intro i d hd
          rcases Nat.lt_or_ge (i : Nat) acc.length with hi | hi
          · have hget : (acc ++ [s]).get i = acc.get ⟨i, hi⟩ := by
              apply List.get_append
            rw [hget] at hd
            obtain ⟨k, hki, hkname⟩ := hinv ⟨i, hi⟩ d hd
            refine ⟨⟨k, by simp; omega⟩, by simpa using hki, ?_⟩
            have : (acc ++ [s]).get ⟨k, by simp; omega⟩ = acc.get k := by
              apply List.get_append
            rw [this, hkname]
          · have hieq : (i : Nat) = acc.length := by
              have := i.isLt
              simp at this
              omega
            have hget : (acc ++ [s]).get i = s := by
              have : (acc ++ [s]).get i =
                  (acc ++ [s]).get ⟨acc.length, by simp⟩ := by
                congr 1
                exact Fin.ext hieq
              rw [this]
              simp
            rw [hget] at hd
            have hall := (List.all_eq_true.mp hs_ready) d hd
            simp only [decide_eq_true_eq] at hall
            obtain ⟨t, htacc, htname⟩ := List.mem_map.mp hall
            obtain ⟨k, hkeq⟩ := List.get_of_mem htacc
            refine ⟨⟨k, by simp; omega⟩, by rw [hieq]; simpa using k.isLt, ?_⟩
            have : (acc ++ [s]).get ⟨k, by simp; omega⟩ = acc.get k := by
              apply List.get_append
            rw [this, hkeq, htname]
        · intro a ha
          rcases List.mem_append.mp ha with ha | ha
          · exact hsub a ha
          · rw [List.mem_singleton.mp ha]; exact hs_g
        · rw [List.map_append]
          simp only [List.map_cons, List.map_nil]
          rw [List.nodup_append]
          exact ⟨hnd, List.nodup_singleton _, by
            intro a ha hb
            simp only [List.mem_singleton] at hb
            subst hb
            exact hs_new ha⟩

/-- When the sort loop fails with enough fuel, the reported stage set is
non-empty and closed under "has an unemitted dependency": every reported
stage depends on some reported stage.  Requires every declared dependency
to be a registered stage. -/
theorem topoLoop_err_closure (g : List Stage)
    (hwf : ∀ s ∈ g, ∀ d ∈ s.dependencies, ∃ t ∈ g, t.name = d) :
    ∀ (fuel : Nat) (acc : List Stage) (R : List String),
      (remainingStages g acc).length < fuel →
      topoLoop g fuel acc = .error R →
      R ≠ [] ∧ ∀ a ∈ R, ∃ b ∈ R, depEdge g a b := by
  intro fuel
  induction fuel with
  | zero => intro acc R hlen; omega
  | succ n ih =>
    intro acc R hlen h
    by_cases hre : (remainingStages g acc).isEmpty
    · rw [topoLoop, if_pos hre] at h; cases h
    · rw [topoLoop, if_neg hre] at h
      cases hf : (remainingStages g acc).find? (stageReady (acc.map Stage.name)) with
      | some s =>
        rw [hf] at h
        have hs_rem : s ∈ remainingStages g acc := List.mem_of_find?_eq_some hf
        have hlt := remaining_append_lt g acc s hs_rem
        exact ih (acc ++ [s]) R (by omega) h
      | none =>
        rw [hf] at h
        cases h
        have hrem_ne : remainingStages g acc ≠ [] := by
          intro hnil
          rw [hnil] at hre
          exact hre rfl
        constructor
        · intro hnil
          exact hrem_ne (List.map_eq_nil.mp hnil)
        · intro a ha
          obtain ⟨s, hs_rem, hs_name⟩ := List.mem_map.mp ha
          have hs_g : s ∈ g := (List.mem_filter.mp hs_rem).1
          have hs_not_ready := List.find?_eq_none.mp hf s hs_rem
          have : ¬ ∀ d ∈ s.dependencies, decide (d ∈ acc.map Stage.name) = true := by
            intro hall
            exact hs_not_ready (List.all_eq_true.mpr hall)
          push_neg at this
          obtain ⟨d, hd_dep, hd_not⟩ := this
          have hd_notmem : d ∉ acc.map Stage.name := by
            simpa using hd_not
          obtain ⟨t, ht_g, ht_name⟩ := hwf s hs_g d hd_dep
          have ht_rem : t ∈ remainingStages g acc := by
            apply List.mem_filter.mpr
            refine ⟨ht_g, ?_⟩
            simp only [decide_eq_true_eq]
            rw [ht_name]
            exact hd_notmem
          refine ⟨d, ?_, ?_⟩
          · rw [← ht_name]
            exact List.mem_map.mpr ⟨t, ht_rem, rfl⟩
          · exact ⟨s, hs_g, hs_name, hd_dep⟩

/-- A successful run that left nothing remaining contains every registered
stage. -/
theorem topo_complete (g L : List Stage)
    (hnd : (g.map Stage.name).Nodup) (hsub : ∀ a ∈ L, a ∈ g)
    (hrem : remainingStages g L = []) : ∀ s ∈ g, s ∈ L := by
  intro s hs
  have hname : s.name ∈ L.map Stage.name := by
    by_contra hnot
    have : s ∈ remainingStages g L :=
      List.mem_filter.mpr ⟨hs, by simpa using hnot⟩
    rw [hrem] at this
    exact absurd this (List.not_mem_nil s)
  obtain ⟨t, htL, htname⟩ := List.mem_map.mp hname
  have : t = s := List.inj_on_of_nodup_map hnd (hsub t htL) hs htname
  rwa [← this]

/-- Inside an ordering satisfying `DepsBefore` with duplicate-free names,
a stage named among position `i`'s dependencies sits strictly earlier. -/
theorem topo_named_before (L : List Stage) (hInv : DepsBefore L)
    (hndL : (L.map Stage.name).Nodup) (i j : Fin L.length)
    (hd : (L.get j).name ∈ (L.get i).dependencies) : (j : Nat) < (i : Nat) := by
  obtain ⟨k, hki, hkname⟩ := hInv i _ hd
  have h1 : (L.map Stage.name).get ⟨k, by simpa using k.isLt⟩ =
      (L.map Stage.name).get ⟨j, by simpa using j.isLt⟩ := by
    simp only [List.get_map]
    exact hkname
  have h2 := (List.Nodup.get_inj_iff hndL).mp h1
  have h3 : (k : Nat) = (j : Nat) := by
    have h4 := congrArg Fin.val h2
    simpa using h4
  omega

/-- A single dependency edge between two positions of a successful ordering
forces the dependency to sit strictly earlier. -/
theorem topo_edge_lt (g L : List Stage) (hnd : (g.map Stage.name).Nodup)
    (hInv : DepsBefore L) (hndL : (L.map Stage.name).Nodup)
    (hsub : ∀ a ∈ L, a ∈ g) (i j : Fin L.length)
    (he : depEdge g (L.get i).name (L.get j).name) : (j : Nat) < (i : Nat) := by
  obtain ⟨s, hs_g, hs_name, hs_dep⟩ := he
  have hseq : s = L.get i :=
    List.inj_on_of_nodup_map hnd hs_g (hsub _ (L.get_mem _ _)) hs_name
  rw [hseq] at hs_dep
  exact topo_named_before L hInv hndL i j hs_dep

/-- Transitive dependencies also sit strictly earlier in a successful
ordering (the dependency chain may pass through any registered stage,
which completeness places somewhere in the ordering). -/
theorem topo_trans_lt (g L : List Stage) (hnd : (g.map Stage.name).Nodup)
    (hInv : DepsBefore L) (hndL : (L.map Stage.name).Nodup)
    (hsub : ∀ a ∈ L, a ∈ g) (hcomp : ∀ s ∈ g, s ∈ L) :
    ∀ a b, Relation.TransGen (depEdge g) a b →
      ∀ i j : Fin L.length, (L.get i).name = a → (L.get j).name = b →
        (j : Nat) < (i : Nat) := by
  intro a b htg
  induction htg with
  | single h =>
    intro i j hi hj
    exact topo_edge_lt g L hnd hInv hndL hsub i j (by rw [hi, hj]; exact h)
  | tail htg h ih =>
    intro i j hi hj
    obtain ⟨s, hs_g, hs_name, hs_dep⟩ := h
    obtain ⟨k, hkeq⟩ := List.get_of_mem (hcomp s hs_g)
    have h1 : (k : Nat) < (i : Nat) := ih i k hi (by rw [hkeq]; exact hs_name)
    have h2 : (j : Nat) < (k : Nat) :=
      topo_edge_lt g L hnd hInv hndL hsub k j
        ⟨s, hs_g, by rw [hkeq], by rw [hj]; exact hs_dep⟩
    omega

/-- Pigeonhole over a finite successor-closed set: if every member of a
non-empty list has an `r`-successor inside the list, some member lies on an
`r`-cycle.  Applied to the stuck set reported by the sort loop. -/
theorem exists_cycle_member {α : Type} [DecidableEq α] {r : α → α → Prop}
    (R : List α) (hne : R ≠ []) (hstep : ∀ a ∈ R, ∃ b ∈ R, r a b) :
    ∃ w ∈ R, Relation.TransGen r w w := by
  classical
  let f : α → α := fun a => if h : a ∈ R then (hstep a h).choose else a
  have hfR : ∀ a ∈ R, f a ∈ R := by
    intro a ha
    simp only [f, dif_pos ha]
    exact (hstep a ha).choose_spec.1
  have hfr : ∀ a ∈ R, r a (f a) := by
    intro a ha
    simp only [f, dif_pos ha]
    exact (hstep a ha).choose_spec.2
  obtain ⟨x0, hx0⟩ : ∃ x, x ∈ R := by
    cases R with
    | nil => exact absurd rfl hne
    | cons y ys => exact ⟨y, List.mem_cons_self y ys⟩
  have hiter : ∀ n, f^[n] x0 ∈ R := by
    intro n
    induction n with
    | zero => simpa using hx0
    | succ n ihn =>
      rw [Function.iterate_succ_apply']
      exact hfR _ ihn
  have hchain : ∀ n k, Relation.TransGen r (f^[n] x0) (f^[n + (k + 1)] x0) := by
    intro n k
    induction k with
    | zero =>
      have he : f^[n + 1] x0 = f (f^[n] x0) := Function.iterate_succ_apply' f n x0
      rw [he]
      exact Relation.TransGen.single (hfr _ (hiter n))
    | succ k ihk =>
      have he : f^[n + (k + 1 + 1)] x0 = f (f^[n + (k + 1)] x0) := by
        rw [show n + (k + 1 + 1) = (n + (k + 1)) + 1 by omega]
        exact Function.iterate_succ_apply' f _ x0
      rw [he]
      exact Relation.TransGen.tail ihk (hfr _ (hiter _))
  have hmaps : ∀ n ∈ Finset.range (R.toFinset.card + 1), f^[n] x0 ∈ R.toFinset := by
    intro n _
    exact List.mem_toFinset.mpr (hiter n)
  have hcard : R.toFinset.card < (Finset.range (R.toFinset.card + 1)).card := by
    simp
  obtain ⟨i, _, j, _, hij, heq⟩ :=
    Finset.exists_ne_map_eq_of_card_lt_of_maps_to hcard hmaps
  have key : ∀ i j : Nat, i < j → f^[i] x0 = f^[j] x0 →
      ∃ w ∈ R, Relation.TransGen r w w := by
    intro i j hlt he
    refine ⟨f^[i] x0, hiter i, ?_⟩
    have hc := hchain i (j - i - 1)
    rw [show i + (j - i - 1 + 1) = j by omega] at hc
    rw [← he] at hc
    exact hc
  rcases Nat.lt_or_ge i j with hlt | hge
  · exact key i j hlt heq
  · have hlt : j < i := by omega
    exact key j i hlt heq.symm

/-- C4: on every acyclic registry (unique stage names, every declared
dependency registered), `all_modules` returns an ordering: the sort
succeeds, the ordering contains every registered stage, every stage
appears strictly after each of its transitive dependencies, and — the
model being a pure function with a deterministic declaration-order
tie-break — repeated calls on the same registry return the identical
ordering. -/
theorem all_modules_topological_order (g : List Stage)
    (hnd : (g.map Stage.name).Nodup)
    (hwf : ∀ s ∈ g, ∀ d ∈ s.dependencies, ∃ t ∈ g, t.name = d)
    (hacyc : ∀ v, ¬ Relation.TransGen (depEdge g) v v) :
    ∃ L : List Stage, toposortStages g = .ok L ∧
      all_modules g = .ok (L.map (fun m => (m.name, m))) ∧
      (∀ s ∈ g, s ∈ L) ∧
      (∀ i j : Fin L.length,
        Relation.TransGen (depEdge g) (L.get i).name (L.get j).name →
          (j : Nat) < (i : Nat)) ∧
      all_modules g = all_modules g := by
  cases h0 : topoLoop g (g.length + 1) [] with
  | error R =>
    exfalso
    have hlen : (remainingStages g []).length < g.length + 1 := by
      rw [remaining_nil]; omega
    obtain ⟨hne, hcl⟩ := topoLoop_err_closure g hwf (g.length + 1) [] R hlen h0
    obtain ⟨w, _, hcyc⟩ := exists_cycle_member R hne hcl
    exact hacyc w hcyc
  | ok L =>
    have hinv0 : DepsBefore ([] : List Stage) := by
      intro i
      exact absurd i.isLt (by simp)
    obtain ⟨hInv, hsub, hndL, hrem⟩ :=
      topoLoop_ok_inv g (g.length + 1) [] L h0 hinv0 (by simp) (by simp)
    have hcomp := topo_complete g L hnd hsub hrem
    refine ⟨L, ?_, ?_, hcomp, ?_, rfl⟩
    · simp [toposortStages, h0]
    · simp [all_modules, toposortStages, h0]
    · intro i j htg
      exact topo_trans_lt g L hnd hInv hndL hsub hcomp _ _ htg i j rfl rfl

/-- The smallest acyclic registry, used to witness
`all_modules_topological_order`. -/
def singletonRegistry : List Stage := [⟨"A", []⟩]

/-- Witness for `all_modules_topological_order` on the one-stage registry:
its dependency relation has no edge at all, so it is acyclic. -/
theorem all_modules_topological_order_witness :
    ∃ L : List Stage, toposortStages singletonRegistry = .ok L ∧
      all_modules singletonRegistry = .ok (L.map (fun m => (m.name, m))) ∧
      (∀ s ∈ singletonRegistry, s ∈ L) ∧
      (∀ i j : Fin L.length,
        Relation.TransGen (depEdge singletonRegistry) (L.get i).name (L.get j).name →
          (j : Nat) < (i : Nat)) ∧
      all_modules singletonRegistry = all_modules singletonRegistry := by
  apply all_modules_topological_order singletonRegistry (by decide) (by decide)
  intro v h
  have hne : ∀ a b : String, ¬ depEdge singletonRegistry a b := by
    rintro a b ⟨s, hs, -, hd⟩
    rw [singletonRegistry, List.mem_singleton] at hs
    subst hs
    simp at hd
  cases h with
  | single e => exact hne _ _ e
  | tail _ e => exact hne _ _ e

/-- C5: on every registry (unique names, dependencies registered) whose
dependency relation contains a cycle, `all_modules` fails with the
`CyclicDependencyError`, the reported stage names include at least one
stage lying on a dependency cycle, and no (partial) ordering is ever
returned. -/
theorem all_modules_cycle_error (g : List Stage) (v : String)
    (hnd : (g.map Stage.name).Nodup)
    (hwf : ∀ s ∈ g, ∀ d ∈ s.dependencies, ∃ t ∈ g, t.name = d)
    (hcyc : Relation.TransGen (depEdge g) v v) :
    ∃ R : List String, toposortStages g = .error (.cyclicDependency R) ∧
      all_modules g = .error (.cyclicDependency R) ∧
      (∃ w ∈ R, Relation.TransGen (depEdge g) w w) ∧
      ∀ L : List Stage, toposortStages g ≠ .ok L := by
  cases h0 : topoLoop g (g.length + 1) [] with
  | ok L =>
    exfalso
    have hinv0 : DepsBefore ([] : List Stage) := by
      intro i
      exact absurd i.isLt (by simp)
    obtain ⟨hInv, hsub, hndL, hrem⟩ :=
      topoLoop_ok_inv g (g.length + 1) [] L h0 hinv0 (by simp) (by simp)
    have hcomp := topo_complete g L hnd hsub hrem
    have hedge : ∃ c, depEdge g v c := by
      obtain ⟨c, hc, -⟩ := Relation.TransGen.head'_iff.mp hcyc
      exact ⟨c, hc⟩
    obtain ⟨c, s, hs_g, hs_name, -⟩ := hedge
    obtain ⟨k, hkeq⟩ := List.get_of_mem (hcomp s hs_g)
    have := topo_trans_lt g L hnd hInv hndL hsub hcomp _ _ hcyc k k
      (by rw [hkeq]; exact hs_name) (by rw [hkeq]; exact hs_name)
    omega
  | error R =>
    have hlen : (remainingStages g []).length < g.length + 1 := by
      rw [remaining_nil]; omega
    obtain ⟨hne, hcl⟩ := topoLoop_err_closure g hwf (g.length + 1) [] R hlen h0
    refine ⟨R, ?_, ?_, exists_cycle_member R hne hcl, ?_⟩
    · simp [toposortStages, h0]
    · simp [all_modules, toposortStages, h0]
    · intro L hL
      rw [toposortStages, h0] at hL
      cases hL

/-- A two-stage registry whose stages depend on each other, used to witness
`all_modules_cycle_error`. -/
def cyclicRegistry : List Stage := [⟨"A", ["B"]⟩, ⟨"B", ["A"]⟩]

/-- Witness for `all_modules_cycle_error`: the two-stage mutual dependency
`A → B → A` is a concrete cycle through `"A"`. -/
theorem all_modules_cycle_error_witness :
    ∃ R : List String, toposortStages cyclicRegistry = .error (.cyclicDependency R) ∧
      all_modules cyclicRegistry = .error (.cyclicDependency R) ∧
      (∃ w ∈ R, Relation.TransGen (depEdge cyclicRegistry) w w) ∧
      ∀ L : List Stage, toposortStages cyclicRegistry ≠ .ok L :=
  all_modules_cycle_error cyclicRegistry "A" (by decide) (by decide)
    (Relation.TransGen.head
      (show depEdge cyclicRegistry "A" "B" by decide)
      (Relation.TransGen.single
        (show depEdge cyclicRegistry "B" "A" by decide)))
